import Mathlib

/-!
Shallow embedding of `src/word_definitions/build.js` (the `writeWord`
aggregator, the reserved-key escaping, the end-of-run writer and its
accounting check), together with theorems settling the specification
claims about that program.

Conventions of the embedding:
* a JSON field that may be absent (or `null`/`undefined`) is an `Option`;
* gloss sequences are `List String`; a JS array is truthy even when empty,
  which the translation of `sense.raw_glosses || sense.glosses || []`
  reflects;
* a falsy string is exactly the empty string `""`;
* `process.exit(1)` inside record processing is an `Except.error`;
* the JS default `Array.prototype.sort` on distinct string keys returns the
  unique permutation sorted by code-unit comparison; it is embedded as an
  insertion sort over `strLe`, the code-unit comparison (all keys involved
  are ASCII, so code units, bytes and code points order identically).
-/

/-- One element of a record's `senses` array: the two gloss fields the
program reads. -/
structure Sense where
  raw_glosses : Option (List String)
  glosses : Option (List String)

/-- An input record (one parsed JSON line), restricted to the fields the
program reads. -/
structure Record where
  word : String
  pos : Option String
  senses : List Sense
  etymology_text : Option String

/-- Negation of the skip test `/[^a-z]/.test(word_json.word)`: `true` when
no character of the word lies outside `a`–`z`.  The empty word has no such
character, so it is valid. -/
def validWord (w : String) : Bool :=
  w.data.all (fun c => 'a' ≤ c && c ≤ 'z')

/-- `sense.raw_glosses || sense.glosses || []`: a present array — empty or
not — is truthy; a missing field is `undefined`, which is falsy. -/
def senseDefs (s : Sense) : List String :=
  match s.raw_glosses with
  | some gs => gs
  | none =>
    match s.glosses with
    | some gs => gs
    | none => []

/-- `word_json.senses.flatMap(sense => sense.raw_glosses || sense.glosses || [])`. -/
def flatDefs (r : Record) : List String :=
  (r.senses.map senseDefs).flatten

/-- `defs` after the fallback branch.  The source pushes
`out_obj.etymology_text || "No definition found"`, and `out_obj` was just
built with only the fields `pos` and `defs`, so `out_obj.etymology_text`
is `undefined` (falsy) and the pushed element is always the placeholder
string. -/
def buildDefs (r : Record) : List String :=
  if (flatDefs r).isEmpty then ["No definition found"] else flatDefs r

/-- The `out_obj` value the program aggregates: `{ pos, defs }`. -/
structure OutEntry where
  pos : Option String
  defs : List String
deriving DecidableEq

/-- The `out_obj` built for a non-skipped record. -/
def mkOutEntry (r : Record) : OutEntry :=
  { pos := r.pos, defs := buildDefs r }

/-- The mutable state of the run: the counters `written` and `skipped`,
whether the `No defs for …` warning branch ever ran, and the `words`
object, embedded as an association list whose key order is first-insertion
order (JS object key order for non-numeric keys). -/
structure St where
  written : Nat
  skipped : Nat
  warned : Bool
  words : List (String × List OutEntry)

/-- State at the start of the run. -/
def initSt : St :=
  { written := 0, skipped := 0, warned := false, words := [] }

/-- `words[word_key] = words[word_key] || []; words[word_key].push(out_obj)`:
append to the existing list when the key is present, otherwise add the key
(at the end, preserving JS object insertion order) with a one-element
list. -/
def insertEntry : List (String × List OutEntry) → String → OutEntry →
    List (String × List OutEntry)
  | [], k, e => [(k, [e])]
  | (k', es) :: rest, k, e =>
    if k' = k then (k', es ++ [e]) :: rest else (k', es) :: insertEntry rest k e

/-- `words[key]` where a missing key reads as the empty list. -/
def lookupEntries : List (String × List OutEntry) → String → List OutEntry
  | [], _ => []
  | (k', es) :: rest, k => if k' = k then es else lookupEntries rest k

/-- One `writeWord(word_json)` call.  `Except.error` is the
`process.exit(1)` taken when some element of `defs` is falsy. -/
def writeWord (st : St) (r : Record) : Except String St :=
  if validWord r.word = false then
    Except.ok { st with skipped := st.skipped + 1 }
  else
    let out := mkOutEntry r
    if out.defs.any (fun d => d == "") then
      Except.error r.word
    else
      Except.ok { st with
        warned := st.warned || (out.defs.length == 0)
        words := insertEntry st.words (r.word ++ "_tr") out
        written := st.written + 1 }

/-- The sequence of `parser.on('data')` events: process the parsed records
in order, propagating the fatal exit. -/
def processRecords : St → List Record → Except String St
  | st, [] => Except.ok st
  | st, r :: rs =>
    match writeWord st r with
    | Except.error e => Except.error e
    | Except.ok st' => processRecords st' rs

/-- Strict code-unit lexicographic comparison of character lists, the
order JS `<` induces on the (ASCII) strings this program sorts. -/
def lexLt : List Char → List Char → Bool
  | [], [] => false
  | [], _ :: _ => true
  | _ :: _, [] => false
  | a :: as, b :: bs => if a = b then lexLt as bs else decide (a < b)

/-- JS `a < b` on strings. -/
def strLt (a b : String) : Bool := lexLt a.data b.data

/-- JS `a <= b` on strings: strictly below or equal. -/
def strLe (a b : String) : Bool := strLt a b || a == b

/-- `Object.keys(words).sort()`: the keys rearranged into ascending
code-unit order (on distinct keys every correct sort returns this unique
permutation; insertion sort realizes it). -/
def sortKeys (ks : List String) : List String :=
  ks.insertionSort (fun a b => strLe a b = true)

/-- `key.replace(/_tr$/, '')`: drop a final `"_tr"` when the key ends with
one, otherwise leave the key unchanged. -/
def stripTr (k : String) : String :=
  if k.data.reverse.take 3 = ['r', 't', '_'] then
    String.mk (k.data.reverse.drop 3).reverse
  else k

/-- The sequence of `[key.replace(/_tr$/, ''), words[key]]` lines the
writer emits, in sorted key order. -/
def writerOutput (words : List (String × List OutEntry)) :
    List (String × List OutEntry) :=
  (sortKeys (words.map Prod.fst)).map (fun k => (stripTr k, lookupEntries words k))

/-- What the `parser.on('end')` handler leaves behind: the written output
lines, the exit code of the accounting check, and the final counters and
aggregation map (still observable through the summary log). -/
structure RunResult where
  output : List (String × List OutEntry)
  exitCode : Nat
  written : Nat
  skipped : Nat
  warned : Bool
  words : List (String × List OutEntry)

/-- The `end` handler: write every sorted key's line, then check
`written + skipped !== writable` and exit non-zero on mismatch.  The
output is produced before (and regardless of) the check. -/
def endPhase (writable : Nat) (st : St) : RunResult :=
  { output := writerOutput st.words
    exitCode := if st.written + st.skipped ≠ writable then 1 else 0
    written := st.written
    skipped := st.skipped
    warned := st.warned
    words := st.words }

/-- A whole run.  Each input line is `some record` when the streaming
parser emits a record for it and `none` when the parser silently drops it;
`writable` counts lines, the aggregator sees only the emitted records. -/
def run (lines : List (Option Record)) : Except String RunResult :=
  (processRecords initSt (lines.filterMap id)).map (endPhase lines.length)

/-- A JSON value, as far as `JSON.stringify` output shape matters here. -/
inductive Json where
  | str : String → Json
  | arr : List Json → Json
  | obj : List (String × Json) → Json

/-- The member list of `JSON.stringify({pos, defs})` for an entry:
`JSON.stringify` omits a member whose value is `undefined`, so a missing
`pos` contributes no member at all. -/
def entryMembers (e : OutEntry) : List (String × Json) :=
  (match e.pos with
   | some p => [("pos", Json.str p)]
   | none => []) ++ [("defs", Json.arr (e.defs.map Json.str))]

/-- Modelled from the spec claim text: the regex `^[a-z]+$` (at least one
character, all in `a`–`z`). -/
def matchesAZplus (w : String) : Bool :=
  !w.data.isEmpty && w.data.all (fun c => 'a' ≤ c && c ≤ 'z')

/-- Modelled from the spec's transformation rule, for comparison with
`senseDefs`: the per-sense contribution is `raw_glosses` if present and
non-empty, else `glosses` if present and non-empty, else nothing. -/
def senseDefsSpec (s : Sense) : List String :=
  match s.raw_glosses with
  | some gs =>
    if gs.isEmpty then
      match s.glosses with
      | some hs => if hs.isEmpty then [] else hs
      | none => []
    else gs
  | none =>
    match s.glosses with
    | some hs => if hs.isEmpty then [] else hs
    | none => []

/-- Per-sense contribution as the amended claim states it: `raw_glosses`
whenever the field is present (even when it is the empty sequence), else
`glosses` whenever that field is present, else nothing. -/
def senseContribAmended (s : Sense) : List String :=
  if s.raw_glosses.isSome then s.raw_glosses.getD []
  else if s.glosses.isSome then s.glosses.getD []
  else []

/-- Concrete record exercising the etymology fallback: empty senses
contribution and a present `etymology_text`. -/
def etyRec : Record :=
  { word := "alpha", pos := some "noun", senses := [{ raw_glosses := none, glosses := none }]
    etymology_text := some "From Latin alpha" }

/-- Concrete sense whose `raw_glosses` is present but empty while
`glosses` is present and non-empty. -/
def emptyRawSense : Sense :=
  { raw_glosses := some [], glosses := some ["a feline"] }

/-- Concrete record carrying `emptyRawSense`. -/
def emptyRawRec : Record :=
  { word := "cat", pos := some "noun", senses := [emptyRawSense], etymology_text := none }

/-- Concrete record whose word is the empty string. -/
def emptyWordRec : Record :=
  { word := "", pos := some "noun"
    senses := [{ raw_glosses := none, glosses := some ["nothing"] }]
    etymology_text := none }

/-- Concrete well-behaved record used by the witnesses. -/
def catRec : Record :=
  { word := "cat", pos := some "noun"
    senses := [{ raw_glosses := none, glosses := some ["a small domesticated feline"] }]
    etymology_text := none }

/-- Concrete record with no `pos` field. -/
def noPosRec : Record :=
  { word := "dog", pos := none
    senses := [{ raw_glosses := some ["a canine"], glosses := none }]
    etymology_text := none }

/-- Concrete input used by the witnesses: two parsed lines. -/
def demoLines : List (Option Record) := [some catRec, some noPosRec]

/-- The entry the program builds for `catRec`. -/
def catEntry : OutEntry :=
  { pos := some "noun", defs := ["a small domesticated feline"] }

/-- The entry the program builds for `noPosRec`. -/
def dogEntry : OutEntry :=
  { pos := none, defs := ["a canine"] }

/-- The run result on `demoLines`, spelled out. -/
def demoRes : RunResult :=
  { output := [("cat", [catEntry]), ("dog", [dogEntry])]
    exitCode := 0
    written := 2
    skipped := 0
    warned := false
    words := [("cat_tr", [catEntry]), ("dog_tr", [dogEntry])] }

/-! ### Order facts about the code-unit comparison -/

theorem lexLt_cons_cons (a b : Char) (as bs : List Char) :
    lexLt (a :: as) (b :: bs) = if a = b then lexLt as bs else decide (a < b) := rfl

theorem lexLt_irrefl : ∀ l : List Char, lexLt l l = false
  | [] => rfl
  | a :: as => by
    rw [lexLt_cons_cons, if_pos rfl, lexLt_irrefl as]

theorem lexLt_trans : ∀ {l1 l2 l3 : List Char},
    lexLt l1 l2 = true → lexLt l2 l3 = true → lexLt l1 l3 = true
  | [], [], _, h1, _ => by cases h1
  | [], _ :: _, [], _, h2 => by cases h2
  | [], _ :: _, _ :: _, _, _ => rfl
  | _ :: _, [], _, h1, _ => by cases h1
  | _ :: _, _ :: _, [], _, h2 => by cases h2
  | a :: as, b :: bs, c :: cs, h1, h2 => by
    rw [lexLt_cons_cons] at h1 h2 ⊢
    by_cases hab : a = b
    · subst hab
      rw [if_pos rfl] at h1
      by_cases hac : a = c
      · subst hac
        rw [if_pos rfl] at h2 ⊢
        exact lexLt_trans h1 h2
      · rw [if_neg hac] at h2 ⊢
        exact h2
    · rw [if_neg hab] at h1
      have hab' : a < b := of_decide_eq_true h1
      by_cases hbc : b = c
      · subst hbc
        rw [if_neg hab]
        exact h1
      · rw [if_neg hbc] at h2
        have hbc' : b < c := of_decide_eq_true h2
        have hac' : a < c := lt_trans hab' hbc'
        rw [if_neg (ne_of_lt hac')]
        exact decide_eq_true hac'

theorem lexLt_asymm {l1 l2 : List Char} (h : lexLt l1 l2 = true) :
    lexLt l2 l1 = false := by
  by_contra hne
  have h2 : lexLt l2 l1 = true := by
    cases hx : lexLt l2 l1 with
    | false => exact absurd hx hne
    | true => rfl
  have := lexLt_trans h h2
  rw [lexLt_irrefl] at this
  cases this

theorem lexLt_of_ne : ∀ {l1 l2 : List Char},
    lexLt l1 l2 = false → l1 ≠ l2 → lexLt l2 l1 = true
  | [], [], _, hne => absurd rfl hne
  | [], _ :: _, h1, _ => by cases h1
  | _ :: _, [], _, _ => rfl
  | a :: as, b :: bs, h1, hne => by
    rw [lexLt_cons_cons] at h1 ⊢
    by_cases hab : a = b
    · subst hab
      rw [if_pos rfl] at h1 ⊢
      have htl : as ≠ bs := by
        intro h
        exact hne (by rw [h])
      exact lexLt_of_ne h1 htl
    · rw [if_neg hab] at h1
      rw [if_neg (Ne.symm hab)]
      have : ¬ a < b := of_decide_eq_false h1
      rcases lt_or_gt_of_ne hab with hlt | hgt
      · exact absurd hlt this
      · exact decide_eq_true hgt

/-- Appending the `"_tr"` suffix preserves strict code-unit order between
lists of characters drawn from `a`–`z`. -/
theorem lexLt_append_tr : ∀ {l1 l2 : List Char}, (∀ c ∈ l2, 'a' ≤ c) →
    lexLt l1 l2 = true →
    lexLt (l1 ++ ['_', 't', 'r']) (l2 ++ ['_', 't', 'r']) = true
  | [], [], _, h1 => by cases h1
  | _ :: _, [], _, h1 => by cases h1
  | [], b :: bs, hch, _ => by
    have hb : 'a' ≤ b := hch b (List.mem_cons_self b bs)
    have hub : '_' < b := lt_of_lt_of_le (by decide) hb
    show lexLt ('_' :: ['t', 'r']) (b :: (bs ++ ['_', 't', 'r'])) = true
    rw [lexLt_cons_cons, if_neg (ne_of_lt hub)]
    exact decide_eq_true hub
  | a :: as, b :: bs, hch, h1 => by
    rw [lexLt_cons_cons] at h1
    show lexLt (a :: (as ++ _)) (b :: (bs ++ _)) = true
    rw [lexLt_cons_cons]
    by_cases hab : a = b
    · subst hab
      rw [if_pos rfl] at h1 ⊢
      exact lexLt_append_tr (fun c hc => hch c (List.mem_cons_of_mem _ hc)) h1
    · rw [if_neg hab] at h1 ⊢
      exact h1

/-! ### String-level consequences -/

theorem strLt_irrefl (a : String) : strLt a a = false :=
  lexLt_irrefl a.data

theorem strLt_trans {a b c : String} (h1 : strLt a b = true)
    (h2 : strLt b c = true) : strLt a c = true :=
  lexLt_trans h1 h2

theorem strLt_asymm {a b : String} (h : strLt a b = true) :
    strLt b a = false :=
  lexLt_asymm h

theorem strLt_of_ne {a b : String} (h : strLt a b = false) (hne : a ≠ b) :
    strLt b a = true :=
  lexLt_of_ne h (fun hd => hne (String.ext hd))

theorem validWord_chars {w : String} (h : validWord w = true) :
    ∀ c ∈ w.data, 'a' ≤ c := by
  intro c hc
  have := List.all_eq_true.mp h c hc
  exact of_decide_eq_true ((Bool.and_eq_true _ _).mp this).1

theorem strLt_append_tr {w1 w2 : String} (h2 : validWord w2 = true)
    (h : strLt w1 w2 = true) :
    strLt (w1 ++ "_tr") (w2 ++ "_tr") = true := by
  show lexLt (w1 ++ "_tr").data (w2 ++ "_tr").data = true
  rw [String.data_append, String.data_append]
  exact lexLt_append_tr (validWord_chars h2) h

theorem append_tr_inj {w1 w2 : String} (h : w1 ++ "_tr" = w2 ++ "_tr") :
    w1 = w2 := by
  have hd := congrArg String.data h
  simp only [String.data_append] at hd
  exact String.ext (List.append_cancel_right hd)

theorem stripTr_append (w : String) : stripTr (w ++ "_tr") = w := by
  unfold stripTr
  rw [String.data_append]
  rw [show ("_tr".data : List Char) = ['_', 't', 'r'] from rfl]
  rw [List.reverse_append]
  rw [show (['_', 't', 'r'] : List Char).reverse = ['r', 't', '_'] from rfl]
  show (if ('r' :: 't' :: '_' :: w.data.reverse).take 3 = ['r', 't', '_'] then
    String.mk (('r' :: 't' :: '_' :: w.data.reverse).drop 3).reverse else _) = w
  rw [if_pos (by simp)]
  simp only [List.drop_succ_cons, List.drop_zero, List.reverse_reverse]

/-- Reflecting direction of `strLt_append_tr`: on valid words the escaping
cannot reorder keys. -/
theorem strLt_append_tr_rev {w1 w2 : String} (h1 : validWord w1 = true)
    (h2 : validWord w2 = true)
    (h : strLt (w1 ++ "_tr") (w2 ++ "_tr") = true) : strLt w1 w2 = true := by
  by_cases heq : w1 = w2
  · subst heq
    rw [strLt_irrefl] at h
    cases h
  · cases hx : strLt w1 w2 with
    | true => rfl
    | false =>
      have hgt : strLt w2 w1 = true := strLt_of_ne hx heq
      have := strLt_append_tr h1 hgt
      rw [strLt_asymm h] at this
      cases this

instance : IsTrans String (fun a b => strLe a b = true) := by
  constructor
  intro a b c h1 h2
  simp only [strLe, Bool.or_eq_true, beq_iff_eq] at *
  rcases h1 with h1 | h1
  · rcases h2 with h2 | h2
    · exact Or.inl (strLt_trans h1 h2)
    · subst h2
      exact Or.inl h1
  · subst h1
    exact h2

instance : IsTotal String (fun a b => strLe a b = true) := by
  constructor
  intro a b
  simp only [strLe, Bool.or_eq_true, beq_iff_eq]
  by_cases heq : a = b
  · exact Or.inl (Or.inr heq)
  · cases hx : strLt a b with
    | true => exact Or.inl (Or.inl rfl)
    | false => exact Or.inr (Or.inl (strLt_of_ne hx heq))

theorem strLt_of_le_of_ne {a b : String} (h : strLe a b = true) (hne : a ≠ b) :
    strLt a b = true := by
  simp only [strLe, Bool.or_eq_true, beq_iff_eq] at h
  rcases h with h | h
  · exact h
  · exact absurd h hne

/-! ### Association-list lemmas for the `words` object -/

theorem lookupEntries_insert_self (ws : List (String × List OutEntry))
    (k : String) (e : OutEntry) :
    lookupEntries (insertEntry ws k e) k = lookupEntries ws k ++ [e] := by
  induction ws with
  | nil => simp [insertEntry, lookupEntries]
  | cons p rest ih =>
    obtain ⟨k', es⟩ := p
    by_cases hk : k' = k
    · subst hk
      simp [insertEntry, lookupEntries]
    · simp [insertEntry, lookupEntries, hk, ih]

theorem lookupEntries_insert_ne (ws : List (String × List OutEntry))
    {k k' : String} (e : OutEntry) (hne : k' ≠ k) :
    lookupEntries (insertEntry ws k e) k' = lookupEntries ws k' := by
  have hne' : k ≠ k' := fun h => hne h.symm
  induction ws with
  | nil => simp [insertEntry, lookupEntries, hne']
  | cons p rest ih =>
    obtain ⟨k'', es⟩ := p
    by_cases hk : k'' = k
    · subst hk
      simp [insertEntry, lookupEntries, hne']
    · by_cases hk' : k'' = k'
      · subst hk'
        simp [insertEntry, lookupEntries, hk]
      · simp [insertEntry, lookupEntries, hk, hk', ih]

theorem keys_insertEntry (ws : List (String × List OutEntry)) (k : String)
    (e : OutEntry) :
    (insertEntry ws k e).map Prod.fst =
      if k ∈ ws.map Prod.fst then ws.map Prod.fst else ws.map Prod.fst ++ [k] := by
  induction ws with
  | nil => simp [insertEntry]
  | cons p rest ih =>
    obtain ⟨k', es⟩ := p
    by_cases hk : k' = k
    · subst hk
      simp [insertEntry]
    · have hk' : k ≠ k' := fun h => hk h.symm
      simp only [insertEntry, if_neg hk, List.map_cons, ih]
      by_cases hmem : k ∈ rest.map Prod.fst
      · simp [hmem, hk']
      · simp [hmem, hk']

theorem mem_keys_insertEntry (ws : List (String × List OutEntry))
    (k k' : String) (e : OutEntry) :
    k' ∈ (insertEntry ws k e).map Prod.fst ↔
      (k' ∈ ws.map Prod.fst ∨ k' = k) := by
  rw [keys_insertEntry]
  by_cases hmem : k ∈ ws.map Prod.fst
  · rw [if_pos hmem]
    constructor
    · exact Or.inl
    · rintro (h | h)
      · exact h
      · exact h ▸ hmem
  · rw [if_neg hmem]
    simp

theorem nodup_keys_insertEntry (ws : List (String × List OutEntry))
    (k : String) (e : OutEntry) (h : (ws.map Prod.fst).Nodup) :
    ((insertEntry ws k e).map Prod.fst).Nodup := by
  rw [keys_insertEntry]
  by_cases hmem : k ∈ ws.map Prod.fst
  · rwa [if_pos hmem]
  · rw [if_neg hmem]
    simp [List.nodup_append, h, hmem]

theorem mem_lookupEntries (ws : List (String × List OutEntry)) (k : String)
    {e : OutEntry} (h : e ∈ lookupEntries ws k) : ∃ p ∈ ws, e ∈ p.2 := by
  induction ws with
  | nil => simp [lookupEntries] at h
  | cons p rest ih =>
    obtain ⟨k', es⟩ := p
    by_cases hk : k' = k
    · subst hk
      simp only [lookupEntries, if_pos rfl] at h
      exact ⟨(k', es), List.mem_cons_self _ _, h⟩
    · simp only [lookupEntries, if_neg hk] at h
      obtain ⟨q, hq, he⟩ := ih h
      exact ⟨q, List.mem_cons_of_mem _ hq, he⟩

theorem values_insertEntry :
    ∀ (ws : List (String × List OutEntry)) (k : String) (e : OutEntry)
      (p : String × List OutEntry), p ∈ insertEntry ws k e →
      ∀ x ∈ p.2, (∃ q ∈ ws, x ∈ q.2) ∨ x = e
  | [], k, e, p, hp, x, hx => by
    simp only [insertEntry, List.mem_singleton] at hp
    subst hp
    simp only [List.mem_singleton] at hx
    exact Or.inr hx
  | (k', es) :: rest, k, e, p, hp, x, hx => by
    by_cases hk : k' = k
    · subst hk
      simp only [insertEntry, if_pos rfl] at hp
      cases hp with
      | head =>
        simp only [List.mem_append, List.mem_singleton] at hx
        rcases hx with hx | hx
        · exact Or.inl ⟨(k', es), List.mem_cons_self _ _, hx⟩
        · exact Or.inr hx
      | tail _ hp => exact Or.inl ⟨p, List.mem_cons_of_mem _ hp, hx⟩
    · simp only [insertEntry, if_neg hk] at hp
      cases hp with
      | head => exact Or.inl ⟨(k', es), List.mem_cons_self _ _, hx⟩
      | tail _ hp =>
        rcases values_insertEntry rest k e p hp x hx with ⟨q', hq', hx'⟩ | hx'
        · exact Or.inl ⟨q', List.mem_cons_of_mem _ hq', hx'⟩
        · exact Or.inr hx'

/-! ### Behaviour of a single `writeWord` call -/

theorem buildDefs_ne_nil (r : Record) : buildDefs r ≠ [] := by
  unfold buildDefs
  by_cases h : (flatDefs r).isEmpty = true
  · rw [if_pos h]
    intro hc
    cases hc
  · rw [if_neg h]
    intro hc
    rw [hc] at h
    exact h rfl

theorem buildDefs_length_ne_zero (r : Record) :
    ((buildDefs r).length == 0) = false := by
  cases h : buildDefs r with
  | nil => exact absurd h (buildDefs_ne_nil r)
  | cons a l => rfl

theorem writeWord_skip {r : Record} (st : St) (h : validWord r.word = false) :
    writeWord st r = Except.ok { st with skipped := st.skipped + 1 } := by
  simp [writeWord, h]

theorem writeWord_error {r : Record} (st : St) (h : validWord r.word = true)
    (hbad : (buildDefs r).any (fun d => d == "") = true) :
    writeWord st r = Except.error r.word := by
  simp [writeWord, mkOutEntry, h, hbad]

theorem writeWord_ok {r : Record} (st : St) (h : validWord r.word = true)
    (hgood : (buildDefs r).any (fun d => d == "") = false) :
    writeWord st r = Except.ok
      { written := st.written + 1
        skipped := st.skipped
        warned := st.warned
        words := insertEntry st.words (r.word ++ "_tr") (mkOutEntry r) } := by
  simp [writeWord, mkOutEntry, h, hgood, buildDefs_length_ne_zero]

theorem processRecords_cons (st : St) (r : Record) (rs : List Record) :
    processRecords st (r :: rs) =
      match writeWord st r with
      | Except.error e => Except.error e
      | Except.ok st' => processRecords st' rs := rfl

/-! ### Invariants carried through `processRecords` -/

theorem processRecords_counters : ∀ (rs : List Record) (st st' : St),
    processRecords st rs = Except.ok st' →
    st'.written = st.written + rs.countP (fun r => validWord r.word) ∧
    st'.skipped = st.skipped + rs.countP (fun r => !validWord r.word) ∧
    st'.warned = st.warned
  | [], st, st', h => by
    cases h
    simp
  | r :: rs, st, st', h => by
    rw [processRecords_cons] at h
    cases hv : validWord r.word with
    | false =>
      rw [writeWord_skip st hv] at h
      obtain ⟨h1, h2, h3⟩ := processRecords_counters rs _ st' h
      refine ⟨?_, ?_, h3⟩
      · rw [h1, List.countP_cons]
        simp [hv]
      · rw [h2, List.countP_cons]
        simp [hv]
        omega
    | true =>
      cases hbad : (buildDefs r).any (fun d => d == "") with
      | true =>
        rw [writeWord_error st hv hbad] at h
        cases h
      | false =>
        rw [writeWord_ok st hv hbad] at h
        obtain ⟨h1, h2, h3⟩ := processRecords_counters rs _ st' h
        refine ⟨?_, ?_, h3⟩
        · rw [h1, List.countP_cons]
          simp [hv]
          omega
        · rw [h2, List.countP_cons]
          simp [hv]

theorem processRecords_lookup : ∀ (rs : List Record) (st st' : St),
    processRecords st rs = Except.ok st' → ∀ k,
    lookupEntries st'.words k = lookupEntries st.words k ++
      (rs.filter (fun r => validWord r.word && (r.word ++ "_tr") == k)).map mkOutEntry
  | [], st, st', h, k => by
    cases h
    simp
  | r :: rs, st, st', h, k => by
    rw [processRecords_cons] at h
    cases hv : validWord r.word with
    | false =>
      rw [writeWord_skip st hv] at h
      rw [processRecords_lookup rs _ st' h k]
      rw [List.filter_cons_of_neg (by simp [hv])]
    | true =>
      cases hbad : (buildDefs r).any (fun d => d == "") with
      | true =>
        rw [writeWord_error st hv hbad] at h
        cases h
      | false =>
        rw [writeWord_ok st hv hbad] at h
        rw [processRecords_lookup rs _ st' h k]
        by_cases hk : (r.word ++ "_tr") = k
        · subst hk
          rw [List.filter_cons_of_pos (by simp [hv])]
          show lookupEntries (insertEntry st.words (r.word ++ "_tr") (mkOutEntry r)) _ ++ _ = _
          rw [lookupEntries_insert_self, List.map_cons, List.append_assoc]
          rfl
        · rw [List.filter_cons_of_neg (by simp [hv, hk])]
          show lookupEntries (insertEntry st.words (r.word ++ "_tr") (mkOutEntry r)) k ++ _ = _
          rw [lookupEntries_insert_ne _ _ (fun h => hk h.symm)]

theorem processRecords_mem_keys : ∀ (rs : List Record) (st st' : St),
    processRecords st rs = Except.ok st' → ∀ k,
    (k ∈ st'.words.map Prod.fst ↔
      (k ∈ st.words.map Prod.fst ∨
        ∃ r ∈ rs, validWord r.word = true ∧ k = r.word ++ "_tr"))
  | [], st, st', h, k => by
    cases h
    simp
  | r :: rs, st, st', h, k => by
    rw [processRecords_cons] at h
    cases hv : validWord r.word with
    | false =>
      rw [writeWord_skip st hv] at h
      rw [processRecords_mem_keys rs _ st' h k]
      constructor
      · rintro (hm | hm)
        · exact Or.inl hm
        · exact Or.inr (by
            obtain ⟨r', hr', hvr', hk⟩ := hm
            exact ⟨r', List.mem_cons_of_mem _ hr', hvr', hk⟩)
      · rintro (hm | ⟨r', hr', hvr', hk⟩)
        · exact Or.inl hm
        · rcases List.mem_cons.mp hr' with hr' | hr'
          · subst hr'
            rw [hv] at hvr'
            cases hvr'
          · exact Or.inr ⟨r', hr', hvr', hk⟩
    | true =>
      cases hbad : (buildDefs r).any (fun d => d == "") with
      | true =>
        rw [writeWord_error st hv hbad] at h
        cases h
      | false =>
        rw [writeWord_ok st hv hbad] at h
        rw [processRecords_mem_keys rs _ st' h k]
        show (k ∈ (insertEntry st.words (r.word ++ "_tr") (mkOutEntry r)).map Prod.fst ∨ _) ↔ _
        rw [mem_keys_insertEntry]
        constructor
        · rintro ((hm | hm) | hm)
          · exact Or.inl hm
          · exact Or.inr ⟨r, List.mem_cons_self _ _, hv, hm⟩
          · obtain ⟨r', hr', hvr', hk⟩ := hm
            exact Or.inr ⟨r', List.mem_cons_of_mem _ hr', hvr', hk⟩
        · rintro (hm | ⟨r', hr', hvr', hk⟩)
          · exact Or.inl (Or.inl hm)
          · rcases List.mem_cons.mp hr' with hr' | hr'
            · subst hr'
              exact Or.inl (Or.inr hk)
            · exact Or.inr ⟨r', hr', hvr', hk⟩

theorem processRecords_nodup : ∀ (rs : List Record) (st st' : St),
    processRecords st rs = Except.ok st' →
    (st.words.map Prod.fst).Nodup → (st'.words.map Prod.fst).Nodup
  | [], st, st', h, hn => by
    cases h
    exact hn
  | r :: rs, st, st', h, hn => by
    rw [processRecords_cons] at h
    cases hv : validWord r.word with
    | false =>
      rw [writeWord_skip st hv] at h
      exact processRecords_nodup rs _ st' h hn
    | true =>
      cases hbad : (buildDefs r).any (fun d => d == "") with
      | true =>
        rw [writeWord_error st hv hbad] at h
        cases h
      | false =>
        rw [writeWord_ok st hv hbad] at h
        exact processRecords_nodup rs _ st' h
          (nodup_keys_insertEntry st.words _ _ hn)

theorem processRecords_values : ∀ (rs : List Record) (st st' : St),
    processRecords st rs = Except.ok st' →
    (∀ p ∈ st.words, ∀ e ∈ p.2, e.defs ≠ []) →
    ∀ p ∈ st'.words, ∀ e ∈ p.2, e.defs ≠ []
  | [], st, st', h, hv => by
    cases h
    exact hv
  | r :: rs, st, st', h, hval => by
    rw [processRecords_cons] at h
    cases hv : validWord r.word with
    | false =>
      rw [writeWord_skip st hv] at h
      exact processRecords_values rs _ st' h hval
    | true =>
      cases hbad : (buildDefs r).any (fun d => d == "") with
      | true =>
        rw [writeWord_error st hv hbad] at h
        cases h
      | false =>
        rw [writeWord_ok st hv hbad] at h
        refine processRecords_values rs _ st' h ?_
        intro p hp e he
        rcases values_insertEntry st.words _ _ p hp e he with ⟨q, hq, he'⟩ | he'
        · exact hval q hq e he'
        · rw [he']
          exact buildDefs_ne_nil r

theorem processRecords_error_iff : ∀ (rs : List Record) (st : St),
    (∃ e, processRecords st rs = Except.error e) ↔
      ∃ r ∈ rs, validWord r.word = true ∧
        (buildDefs r).any (fun d => d == "") = true
  | [], st => by
    simp [processRecords]
  | r :: rs, st => by
    rw [processRecords_cons]
    cases hv : validWord r.word with
    | false =>
      rw [writeWord_skip st hv]
      rw [processRecords_error_iff rs _]
      constructor
      · rintro ⟨r', hr', hp⟩
        exact ⟨r', List.mem_cons_of_mem _ hr', hp⟩
      · rintro ⟨r', hr', hvr', hp⟩
        rcases List.mem_cons.mp hr' with hr' | hr'
        · subst hr'
          rw [hv] at hvr'
          cases hvr'
        · exact ⟨r', hr', hvr', hp⟩
    | true =>
      cases hbad : (buildDefs r).any (fun d => d == "") with
      | true =>
        rw [writeWord_error st hv hbad]
        constructor
        · intro _
          exact ⟨r, List.mem_cons_self _ _, hv, hbad⟩
        · intro _
          exact ⟨r.word, rfl⟩
      | false =>
        rw [writeWord_ok st hv hbad]
        rw [processRecords_error_iff rs _]
        constructor
        · rintro ⟨r', hr', hp⟩
          exact ⟨r', List.mem_cons_of_mem _ hr', hp⟩
        · rintro ⟨r', hr', hvr', hp⟩
          rcases List.mem_cons.mp hr' with hr' | hr'
          · subst hr'
            rw [hp] at hbad
            cases hbad
          · exact ⟨r', hr', hvr', hp⟩

/-! ### Run-level helpers -/

theorem run_ok_elim {lines : List (Option Record)} {res : RunResult}
    (h : run lines = Except.ok res) :
    ∃ st, processRecords initSt (lines.filterMap id) = Except.ok st ∧
      res = endPhase lines.length st := by
  unfold run at h
  cases hp : processRecords initSt (lines.filterMap id) with
  | error e =>
    rw [hp] at h
    cases h
  | ok st =>
    rw [hp] at h
    cases h
    exact ⟨st, rfl, rfl⟩

theorem demoRun : run demoLines = Except.ok demoRes := rfl

theorem final_keys_shape {lines : List (Option Record)} {st : St}
    (h : processRecords initSt (lines.filterMap id) = Except.ok st) :
    ∀ k ∈ st.words.map Prod.fst, ∃ w, validWord w = true ∧ k = w ++ "_tr" ∧
      w ∈ (lines.filterMap id).map Record.word := by
  intro k hk
  rcases (processRecords_mem_keys _ _ _ h k).mp hk with hm | ⟨r, hr, hvr, hk'⟩
  · simp [initSt] at hm
  · exact ⟨r.word, hvr, hk', List.mem_map_of_mem _ hr⟩

theorem writerOutput_keys (words : List (String × List OutEntry)) :
    (writerOutput words).map Prod.fst =
      (sortKeys (words.map Prod.fst)).map stripTr := by
  unfold writerOutput
  rw [List.map_map]
  rfl

theorem mem_sortKeys {k : String} {ks : List String} :
    k ∈ sortKeys ks ↔ k ∈ ks :=
  (List.perm_insertionSort _ ks).mem_iff

theorem pairwise_strict_of_le_nodup : ∀ {l : List String},
    l.Pairwise (fun a b => strLe a b = true) → l.Nodup →
    l.Pairwise (fun a b => strLt a b = true)
  | [], _, _ => List.Pairwise.nil
  | a :: l, hp, hn => by
    rw [List.pairwise_cons] at hp ⊢
    have hnm := List.Nodup.not_mem hn
    refine ⟨?_, pairwise_strict_of_le_nodup hp.2 (List.Nodup.of_cons hn)⟩
    intro b hb
    refine strLt_of_le_of_ne (hp.1 b hb) ?_
    intro hab
    rw [hab] at hnm
    exact hnm hb

theorem pairwise_strip : ∀ {l : List String},
    (∀ k ∈ l, ∃ w, validWord w = true ∧ k = w ++ "_tr") →
    l.Pairwise (fun a b => strLt a b = true) →
    (l.map stripTr).Pairwise (fun a b => strLt a b = true)
  | [], _, _ => List.Pairwise.nil
  | k :: l, hsh, hp => by
    rw [List.pairwise_cons] at hp
    rw [List.map_cons, List.pairwise_cons]
    refine ⟨?_, pairwise_strip (fun k' hk' => hsh k' (List.mem_cons_of_mem _ hk')) hp.2⟩
    intro b hb
    rw [List.mem_map] at hb
    obtain ⟨k', hk', rfl⟩ := hb
    obtain ⟨w, hvw, hkw⟩ := hsh k (List.mem_cons_self _ _)
    obtain ⟨w', hvw', hkw'⟩ := hsh k' (List.mem_cons_of_mem _ hk')
    rw [hkw, hkw', stripTr_append, stripTr_append]
    refine strLt_append_tr_rev hvw hvw' ?_
    rw [← hkw, ← hkw']
    exact hp.1 _ hk'

/-! ### Claim theorems -/

/-- C1: the claim (and spec) say that when the flattened defs are empty the
fallback is the record's `etymology_text` when present.  The code instead
reads `etymology_text` from `out_obj`, which was just built with only `pos`
and `defs`, so the fallback is always the placeholder: `buildDefs` does not
depend on `etymology_text` at all, and on `etyRec` — flattened defs empty,
`etymology_text` present — it produces `"No definition found"`, not the
etymology text. -/
theorem c1_etymology_fallback_dead :
    (∀ (r : Record) (e : Option String),
      buildDefs { r with etymology_text := e } = buildDefs r) ∧
    flatDefs etyRec = [] ∧
    etyRec.etymology_text = some "From Latin alpha" ∧
    buildDefs etyRec = ["No definition found"] :=
  ⟨fun _ _ => rfl, rfl, rfl, rfl⟩

/-- C2 counterexample: a sense whose `raw_glosses` is present but empty and
whose `glosses` is present and non-empty contributes nothing — the claim
says the `glosses` elements are contributed, but a present empty array is
truthy in JS, so `raw_glosses || glosses` returns the empty `raw_glosses`
and the gloss `"a feline"` never reaches `defs`. -/
theorem c2_empty_raw_glosses_suppresses :
    emptyRawSense.raw_glosses = some [] ∧
    emptyRawSense.glosses = some ["a feline"] ∧
    emptyRawRec.senses = [emptyRawSense] ∧
    validWord emptyRawRec.word = true ∧
    senseDefs emptyRawSense = [] ∧
    buildDefs emptyRawRec = ["No definition found"] ∧
    ¬ "a feline" ∈ buildDefs emptyRawRec := by
  refine ⟨rfl, rfl, rfl, rfl, rfl, rfl, ?_⟩
  rw [show buildDefs emptyRawRec = ["No definition found"] from rfl]
  decide

/-- C2 (amended): `defs` before the fallback is the concatenation, per sense
in order, of `raw_glosses` whenever that field is present (even empty), else
`glosses` whenever present, else nothing; in particular a sense whose
`raw_glosses` is present but empty contributes nothing, whatever its
`glosses` holds. -/
theorem c2_flatDefs_eq_amended :
    (∀ r : Record, flatDefs r = (r.senses.map senseContribAmended).flatten) ∧
    (∀ g : Option (List String),
      senseContribAmended { raw_glosses := some [], glosses := g } = []) := by
  constructor
  · intro r
    unfold flatDefs
    have h : senseDefs = senseContribAmended := by
      funext s
      obtain ⟨rg, g⟩ := s
      cases rg <;> cases g <;> rfl
    rw [h]
  · intro g
    rfl

/-- C6: the reserved-key escaping round-trips (`stripTr` recovers the word
from `word ++ "_tr"`) and is strictly monotone for the writer's sort order
on words made of `a`–`z` characters. -/
theorem c6_escape_roundtrip_monotone (w1 w2 : String)
    (h1 : validWord w1 = true) (h2 : validWord w2 = true) :
    stripTr (w1 ++ "_tr") = w1 ∧
    (strLt w1 w2 = true → strLt (w1 ++ "_tr") (w2 ++ "_tr") = true) :=
  ⟨stripTr_append w1, fun h => strLt_append_tr h2 h⟩

theorem c6_escape_roundtrip_monotone_witness :
    stripTr ("cat" ++ "_tr") = "cat" ∧
    strLt ("cat" ++ "_tr") ("dog" ++ "_tr") = true :=
  ⟨(c6_escape_roundtrip_monotone "cat" "dog" (by decide) (by decide)).1,
   (c6_escape_roundtrip_monotone "cat" "dog" (by decide) (by decide)).2 (by decide)⟩

/-- C7: a run halts with the fatal exit (and hence produces no output at
all, the error result carrying none) exactly when some parsed, non-skipped
record's final `defs` contains a falsy (empty) element; otherwise every
record's processing completes without error. -/
theorem c7_fatal_iff_falsy_def (lines : List (Option Record)) :
    (∃ e, run lines = Except.error e) ↔
      ∃ r ∈ lines.filterMap id, validWord r.word = true ∧
        (buildDefs r).any (fun d => d == "") = true := by
  rw [← processRecords_error_iff (lines.filterMap id) initSt]
  unfold run
  constructor
  · rintro ⟨e, he⟩
    cases hp : processRecords initSt (lines.filterMap id) with
    | error e' => exact ⟨e', rfl⟩
    | ok st =>
      rw [hp] at he
      cases he
  · rintro ⟨e, he⟩
    rw [he]
    exact ⟨e, rfl⟩

/-- C10: the entry's `pos` is copied verbatim from the record with no
validation, and when the record has no `pos` the JSON object encoded for
the entry has no `"pos"` member at all. -/
theorem c10_pos_copied_verbatim (r : Record) :
    (mkOutEntry r).pos = r.pos ∧
    (r.pos = none → ¬ "pos" ∈ (entryMembers (mkOutEntry r)).map Prod.fst) := by
  refine ⟨rfl, ?_⟩
  intro hnone
  unfold entryMembers mkOutEntry
  rw [hnone]
  simp

theorem c10_pos_copied_verbatim_witness :
    (mkOutEntry noPosRec).pos = noPosRec.pos ∧
    ¬ "pos" ∈ (entryMembers (mkOutEntry noPosRec)).map Prod.fst :=
  ⟨(c10_pos_copied_verbatim noPosRec).1,
   (c10_pos_copied_verbatim noPosRec).2 rfl⟩

/-- C3 counterexample: the claim says the written key set equals the input
words matching `^[a-z]+$` and lists the empty string among the skipped
words; but `/[^a-z]/.test("")` is `false`, so the empty word is not skipped
and does appear as an output key even though it does not match the regex. -/
theorem c3_empty_word_reaches_output :
    matchesAZplus "" = false ∧
    validWord "" = true ∧
    (run [some emptyWordRec]).map (fun res => res.output.map Prod.fst) =
      Except.ok [""] :=
  ⟨rfl, rfl, rfl⟩

/-- C3 (amended): the set of keys written to the output equals exactly the
set of input words all of whose characters lie in `a`–`z` (the regex
`^[a-z]*$`, so the empty word qualifies); every other record is skipped and
counted, and its word never appears as an output key. -/
theorem c3_output_keyset (lines : List (Option Record)) (res : RunResult)
    (h : run lines = Except.ok res) :
    (∀ w, w ∈ res.output.map Prod.fst ↔
      (validWord w = true ∧ w ∈ (lines.filterMap id).map Record.word)) ∧
    res.skipped = (lines.filterMap id).countP (fun r => !validWord r.word) := by
  obtain ⟨st, hps, rfl⟩ := run_ok_elim h
  constructor
  · intro w
    show w ∈ (writerOutput st.words).map Prod.fst ↔ _
    rw [writerOutput_keys]
    constructor
    · intro hw
      rw [List.mem_map] at hw
      obtain ⟨k, hk, rfl⟩ := hw
      rw [mem_sortKeys] at hk
      obtain ⟨w', hvw', rfl, hwm⟩ := final_keys_shape hps k hk
      rw [stripTr_append]
      exact ⟨hvw', hwm⟩
    · rintro ⟨hvw, hwm⟩
      rw [List.mem_map] at hwm
      obtain ⟨r, hr, rfl⟩ := hwm
      rw [List.mem_map]
      refine ⟨r.word ++ "_tr", ?_, stripTr_append r.word⟩
      rw [mem_sortKeys]
      exact (processRecords_mem_keys _ _ _ hps _).mpr (Or.inr ⟨r, hr, hvw, rfl⟩)
  · show st.skipped = _
    rw [(processRecords_counters _ _ _ hps).2.1]
    show 0 + _ = _
    rw [Nat.zero_add]

theorem c3_output_keyset_witness :
    ("cat" ∈ demoRes.output.map Prod.fst ↔
      (validWord "cat" = true ∧
        "cat" ∈ (demoLines.filterMap id).map Record.word)) ∧
    demoRes.skipped = (demoLines.filterMap id).countP (fun r => !validWord r.word) :=
  ⟨(c3_output_keyset demoLines demoRes rfl).1 "cat",
   (c3_output_keyset demoLines demoRes rfl).2⟩

/-- C4: every entry stored in the aggregation map — and hence every entry
written to the output — has a non-empty `defs`, and the warning branch for
a zero-length `defs` after the fallback never runs. -/
theorem c4_defs_nonempty (lines : List (Option Record)) (res : RunResult)
    (h : run lines = Except.ok res) :
    (∀ p ∈ res.words, ∀ e ∈ p.2, e.defs ≠ []) ∧
    (∀ p ∈ res.output, ∀ e ∈ p.2, e.defs ≠ []) ∧
    res.warned = false := by
  obtain ⟨st, hps, rfl⟩ := run_ok_elim h
  have hv : ∀ p ∈ st.words, ∀ e ∈ p.2, e.defs ≠ [] := by
    refine processRecords_values _ _ _ hps ?_
    intro p hp
    simp [initSt] at hp
  refine ⟨hv, ?_, ?_⟩
  · intro p hp e he
    have hp' : p ∈ writerOutput st.words := hp
    unfold writerOutput at hp'
    rw [List.mem_map] at hp'
    obtain ⟨k, hk, hpk⟩ := hp'
    rw [← hpk] at he
    obtain ⟨q, hq, he'⟩ := mem_lookupEntries st.words k he
    exact hv q hq e he'
  · show st.warned = false
    rw [(processRecords_counters _ _ _ hps).2.2]
    rfl

theorem c4_defs_nonempty_witness : catEntry.defs ≠ [] :=
  (c4_defs_nonempty demoLines demoRes rfl).1 ("cat_tr", [catEntry])
    (by decide) catEntry (by decide)

/-- C5: the output lines are in strictly ascending code-unit order of their
word keys (hence duplicate-free), and they are a permutation of the
aggregation map's (duplicate-free) keys with the escape suffix stripped —
every map key is written exactly once. -/
theorem c5_output_sorted (lines : List (Option Record)) (res : RunResult)
    (h : run lines = Except.ok res) :
    (res.output.map Prod.fst).Pairwise (fun a b => strLt a b = true) ∧
    List.Perm (res.output.map Prod.fst) ((res.words.map Prod.fst).map stripTr) ∧
    (res.words.map Prod.fst).Nodup := by
  obtain ⟨st, hps, rfl⟩ := run_ok_elim h
  have hnd : (st.words.map Prod.fst).Nodup :=
    processRecords_nodup _ _ _ hps (by simp [initSt])
  refine ⟨?_, ?_, hnd⟩
  · show ((writerOutput st.words).map Prod.fst).Pairwise _
    rw [writerOutput_keys]
    apply pairwise_strip
    · intro k hk
      rw [mem_sortKeys] at hk
      obtain ⟨w, hvw, hkw, _⟩ := final_keys_shape hps k hk
      exact ⟨w, hvw, hkw⟩
    · apply pairwise_strict_of_le_nodup
      · exact List.sorted_insertionSort _ _
      · exact (List.Perm.nodup_iff (List.perm_insertionSort _ _)).mpr hnd
  · show List.Perm ((writerOutput st.words).map Prod.fst) _
    rw [writerOutput_keys]
    exact List.Perm.map stripTr (List.perm_insertionSort _ _)

theorem c5_output_sorted_witness :
    (demoRes.output.map Prod.fst).Pairwise (fun a b => strLt a b = true) ∧
    List.Perm (demoRes.output.map Prod.fst)
      ((demoRes.words.map Prod.fst).map stripTr) ∧
    (demoRes.words.map Prod.fst).Nodup :=
  c5_output_sorted demoLines demoRes rfl

theorem countP_valid_add_not (l : List Record) :
    l.countP (fun r => validWord r.word) +
      l.countP (fun r => !validWord r.word) = l.length := by
  induction l with
  | nil => rfl
  | cons r rs ih =>
    rw [List.countP_cons, List.countP_cons]
    cases hv : validWord r.word
    · simp [hv]
      omega
    · simp [hv]
      omega

/-- C8: on a completed run the exit status is non-zero exactly when
`written + skipped` differs from the number of ingested lines, that sum
always equals the number of parsed records (so a mismatch means the parser
dropped lines), and the output was fully produced regardless of the check's
outcome — it equals the writer's output of the final map either way. -/
theorem c8_end_check (lines : List (Option Record)) (res : RunResult)
    (h : run lines = Except.ok res) :
    (res.exitCode ≠ 0 ↔ res.written + res.skipped ≠ lines.length) ∧
    res.written + res.skipped = (lines.filterMap id).length ∧
    res.output = writerOutput res.words := by
  obtain ⟨st, hps, rfl⟩ := run_ok_elim h
  refine ⟨?_, ?_, rfl⟩
  · show (if st.written + st.skipped ≠ lines.length then 1 else 0) ≠ 0 ↔
      st.written + st.skipped ≠ lines.length
    by_cases hc : st.written + st.skipped ≠ lines.length
    · rw [if_pos hc]
      simp [hc]
    · rw [if_neg hc]
      simp [hc]
  · obtain ⟨h1, h2, _⟩ := processRecords_counters _ _ _ hps
    show st.written + st.skipped = _
    rw [h1, h2]
    show 0 + _ + (0 + _) = _
    rw [Nat.zero_add, Nat.zero_add]
    exact countP_valid_add_not _

theorem c8_end_check_witness :
    (demoRes.exitCode ≠ 0 ↔ demoRes.written + demoRes.skipped ≠ demoLines.length) ∧
    demoRes.written + demoRes.skipped = (demoLines.filterMap id).length ∧
    demoRes.output = writerOutput demoRes.words :=
  c8_end_check demoLines demoRes rfl

/-- C9: each output line's entry list is exactly the per-record entries of
that word's qualifying input records, one per record, in input order. -/
theorem c9_entries_input_order (lines : List (Option Record)) (res : RunResult)
    (h : run lines = Except.ok res) :
    ∀ p ∈ res.output,
      p.2 = ((lines.filterMap id).filter (fun r => r.word == p.1)).map mkOutEntry := by
  obtain ⟨st, hps, rfl⟩ := run_ok_elim h
  intro p hp
  have hp' : p ∈ writerOutput st.words := hp
  unfold writerOutput at hp'
  rw [List.mem_map] at hp'
  obtain ⟨k, hk, hpk⟩ := hp'
  rw [mem_sortKeys] at hk
  obtain ⟨w, hvw, rfl, _⟩ := final_keys_shape hps k hk
  rw [← hpk]
  show lookupEntries st.words (w ++ "_tr") = _
  rw [processRecords_lookup _ _ _ hps]
  show lookupEntries initSt.words _ ++ _ = _
  rw [show lookupEntries initSt.words (w ++ "_tr") = [] from rfl, List.nil_append]
  show _ = ((lines.filterMap id).filter
    (fun r => r.word == stripTr (w ++ "_tr"))).map mkOutEntry
  rw [stripTr_append]
  congr 1
  apply List.filter_congr
  intro r _
  by_cases hw : r.word = w
  · rw [hw]
    simp [hvw]
  · have hne : (r.word ++ "_tr") ≠ (w ++ "_tr") := fun hc => hw (append_tr_inj hc)
    have hb1 : (r.word ++ "_tr" == w ++ "_tr") = false := by
      rw [beq_eq_false_iff_ne]
      exact hne
    have hb2 : (r.word == w) = false := by
      rw [beq_eq_false_iff_ne]
      exact hw
    rw [hb1, hb2, Bool.and_false]

theorem c9_entries_input_order_witness :
    (("cat", [catEntry]) : String × List OutEntry).2 =
      ((demoLines.filterMap id).filter
        (fun r => r.word == (("cat", [catEntry]) : String × List OutEntry).1)).map
        mkOutEntry :=
  c9_entries_input_order demoLines demoRes rfl ("cat", [catEntry]) (by decide)
